import Mathlib

/-!
Shallow embedding of the streaming fee estimator in `src/fee-estimator.ts`.

Numbers are modelled by `ℚ` (the source computes on JS numbers; every claim
below is about exact values, and the reasons in the results note where the
rational model abstracts IEEE doubles).  A JS value that can be `NaN` or
`undefined` is modelled by `Option ℚ`, with `none` for the non-numeric case.
Streams are modelled by the list of their emissions, and the per-emission
operators by functions on those lists.
-/

namespace BtcCongestion

/-- JS division as it acts on possibly undefined operands (reading an absent
object key yields `undefined`, and arithmetic on `undefined` yields `NaN`,
both modelled by `none`).  A zero divisor gives a non-finite JS result
(`±Infinity` or `NaN`), also collapsed to `none`; no definition below divides
a present value by zero. -/
def jsDiv : Option ℚ → Option ℚ → Option ℚ
  | some a, some b => if b = 0 then none else some (a / b)
  | _, _ => none

/-- lodash `meanBy(xs, f)`: the sum of `f` over `xs` divided by the length.
For an empty list this is `0 / 0 = NaN`, modelled by `none`. -/
def jsMeanBy (f : α → ℚ) (xs : List α) : Option ℚ :=
  if xs.isEmpty then none else some ((xs.map f).sum / xs.length)

/-- One value of the mapping returned by `getRawMemPool(true)` (lines 42-51
read `size`, `fee`, `descendentsize`, `descendentfees` from it; the node's
descendent-spelled keys, as documented in the spec).  This is the main model,
in which the aggregate fields are present numbers; the object-key semantics of
the mismatched spelling on line 50 is modelled separately by `RawTxJs` and
`jsProject` below. -/
structure RawMempoolEntry where
  size : ℚ
  fee : ℚ
  descendentsize : ℚ
  descendentfees : ℚ
deriving DecidableEq

/-- A transaction after the projection stage of `sortByFee` (lines 43-51),
before packing. -/
structure PreTx where
  size : ℚ
  fee : ℚ
  descendantsize : ℚ
  descendantfees : ℚ
  txid : String
  feeRate : ℚ
deriving DecidableEq

/-- A packed mempool transaction (interface `MempoolTx`, lines 294-318). -/
structure MempoolTx where
  size : ℚ
  fee : ℚ
  descendantsize : ℚ
  descendantfees : ℚ
  txid : String
  feeRate : ℚ
  cumSize : ℚ
  targetBlock : ℕ
deriving DecidableEq

/-- The projection stage of `sortByFee` (lines 43-51): each `(txid, entry)`
pair of the raw mempool mapping becomes a record carrying the entry's fields
and the derived `feeRate`, the quotient of the entry's aggregate descendant
fees by its aggregate descendant size (line 50). -/
def toPreTx (p : String × RawMempoolEntry) : PreTx :=
  { size := p.2.size
    fee := p.2.fee
    descendantsize := p.2.descendentsize
    descendantfees := p.2.descendentfees
    txid := p.1
    feeRate := p.2.descendentfees / p.2.descendentsize }

/-- The sort comparator `(a, b) => b.feeRate - a.feeRate` (line 52), as the
total Boolean order "`a` may stay before `b`", i.e. comparator value `≤ 0`.
JS `Array.prototype.sort` is stable (ES2019), so the sort itself is modelled
by the stable `List.mergeSort`. -/
def feeRateLe (a b : PreTx) : Bool :=
  decide (b.feeRate ≤ a.feeRate)

/-- The packing pass of `sortByFee` (lines 53-60): walk the sorted list
accumulating `cumSize`; whenever the accumulated `cumSize` exceeds
`n * blockEffectiveSize` both `targetBlock` and `n` are incremented, and the
incremented `targetBlock` is assigned to the crossing transaction itself.
`B` is the configuration constant `blockEffectiveSize` (lines 12-14). -/
def pack (B : ℚ) : List PreTx → ℚ → ℕ → ℕ → List MempoolTx
  | [], _, _, _ => []
  | tx :: rest, cumSize, targetBlock, n =>
    if (n : ℚ) * B < cumSize + tx.size then
      { size := tx.size, fee := tx.fee, descendantsize := tx.descendantsize
        descendantfees := tx.descendantfees, txid := tx.txid
        feeRate := tx.feeRate, cumSize := cumSize + tx.size
        targetBlock := targetBlock + 1 }
        :: pack B rest (cumSize + tx.size) (targetBlock + 1) (n + 1)
    else
      { size := tx.size, fee := tx.fee, descendantsize := tx.descendantsize
        descendantfees := tx.descendantfees, txid := tx.txid
        feeRate := tx.feeRate, cumSize := cumSize + tx.size
        targetBlock := targetBlock }
        :: pack B rest (cumSize + tx.size) targetBlock n

/-- `sortByFee` (lines 42-60) with its default arguments `cumSize = 0`,
`targetBlock = 1`, `n = 1`.  The input list is the raw mempool mapping in its
`Object.keys` enumeration order. -/
def sortByFee (B : ℚ) (txs : List (String × RawMempoolEntry)) : List MempoolTx :=
  pack B ((txs.map toPreTx).mergeSort feeRateLe) 0 1 1

/-- A raw mempool value with JS object-key semantics: each aggregate field is
present (`some`) or absent (`none`, read as `undefined`), under either the
descendent or the descendant spelling of the key. -/
structure RawTxJs where
  size : ℚ
  fee : ℚ
  descendentsize : Option ℚ
  descendentfees : Option ℚ
  descendantsize : Option ℚ
  descendantfees : Option ℚ
deriving DecidableEq

/-- The projection stage of `sortByFee` with JS object-key semantics. -/
structure PreTxJs where
  size : ℚ
  fee : ℚ
  descendantsize : Option ℚ
  descendantfees : Option ℚ
  txid : String
  feeRate : Option ℚ
deriving DecidableEq

/-- Lines 43-51 under JS object-key semantics: lines 47-48 read the
descendent-spelled keys of the entry, while line 50 computes `feeRate` from
the descendant-spelled keys (`txs[txid].descendantfees / txs[txid].descendantsize`).
Sorting and packing copy `feeRate` unchanged, so the `feeRate` of every
transaction produced by `sortByFee` is the one assigned here. -/
def jsProject (txs : List (String × RawTxJs)) : List PreTxJs :=
  txs.map fun p =>
    { size := p.2.size
      fee := p.2.fee
      descendantsize := p.2.descendentsize
      descendantfees := p.2.descendentfees
      txid := p.1
      feeRate := jsDiv p.2.descendantfees p.2.descendantsize }

/-- lodash `differenceBy(prev, next, 'txid')` as used on lines 82-85: the
transactions of the previous snapshot whose `txid` is absent from the new
snapshot. -/
def removedTxs (prev next : List MempoolTx) : List MempoolTx :=
  prev.filter fun tx => !(next.any fun t => t.txid == tx.txid)

/-- The `minedTxs$` filter (lines 87-89): a removed set is classified as a
mined block event exactly when it contains more than 500 transactions. -/
def isMinedEvent (txs : List MempoolTx) : Bool :=
  decide (500 < txs.length)

/-- `minQuant` (lines 92-93): keep the entries whose index `i` satisfies
`i > xs.length * (1 - quantile)`. -/
def minQuant (xs : List α) (quantile : ℚ) : List α :=
  (xs.enum.filter fun p =>
    decide ((xs.length : ℚ) * (1 - quantile) < (p.1 : ℚ))).map Prod.snd

/-- The tail of `scan1`: the emissions after the seed, each obtained by
applying the accumulator function to the previous emission and the new
element. -/
def scan1Go (f : ℚ → ℚ → ℚ) (acc : ℚ) : List ℚ → List ℚ
  | [] => []
  | x :: xs => f acc x :: scan1Go f (f acc x) xs

/-- rxjs `scan` with no seed, specialised to an accumulator of the element
type: the first emission is the first element itself (it seeds the
accumulator), and every later emission is `f acc x` where `acc` is the
previous emission. -/
def scan1 (f : ℚ → ℚ → ℚ) : List ℚ → List ℚ
  | [] => []
  | v :: vs => v :: scan1Go f v vs

/-- `acceleration` (lines 178-180): `velocity(target).scan((v0, v1) => v1 - v0)`
applied to the list of velocity emissions. -/
def accelerationEmits (vs : List ℚ) : List ℚ :=
  scan1 (fun v0 v1 => v1 - v0) vs

/-- A fee estimate as emitted by `getFee(targetBlock)` (lines 212-223); the
`timestamp` and `date` annotations play no role in any claim and are
omitted. -/
structure FeeEst where
  feeRate : ℚ
  targetBlock : ℕ
deriving DecidableEq, Inhabited

/-- `range` (line 226): the fixed list of target blocks. -/
def range : List ℚ :=
  [1, 2, 3, 4]

/-- An element of the array built by `feeDiff$` (lines 231-244): the fee
estimate together with its marginal slope `diff`. -/
structure DiffEntry where
  diff : ℚ
  feeRate : ℚ
  targetBlock : ℕ
deriving DecidableEq, Inhabited

/-- The map/reduce of `feeDiff$` (lines 231-244): index `0` gets `diff = 0`;
index `i > 0` gets `(feeRate_i - feeRate_(i-1)) / (range_i - range_(i-1))`.
`Observable.combineLatest` over the four `getFee` streams always supplies a
list of length 4, so the `range` lookups (defaulted here) are in bounds. -/
def feeDiffAll (x : List FeeEst) : List DiffEntry :=
  x.enum.map fun p =>
    if 0 < p.1 then
      { diff := (p.2.feeRate - (x.getD (p.1 - 1) default).feeRate)
          / (range.getD p.1 0 - range.getD (p.1 - 1) 0)
        feeRate := p.2.feeRate
        targetBlock := p.2.targetBlock }
    else
      { diff := 0, feeRate := p.2.feeRate, targetBlock := p.2.targetBlock }

/-- `feeDiff$` (lines 230-245): the slope array filtered to `diff ≤ 0`. -/
def feeDiff (x : List FeeEst) : List DiffEntry :=
  (feeDiffAll x).filter fun e => decide (e.diff ≤ 0)

/-- An element of the array built by `minDiff$` (lines 256-269). -/
structure MinDiffEntry where
  diff : ℚ
  feeRate : ℚ
  targetBlock : ℕ
  cumDiff : ℚ
  valid : Bool
deriving DecidableEq

/-- The reduce of `minDiff$` (lines 256-269): a running `cumDiff` accumulates
`diff` over every entry (valid or not), and an entry is `valid` iff
`diff === 0` or `diff / xs[i-1].feeRate >= minSavingsRate`.  The `||`
short-circuits in JS: at index 0 a nonzero `diff` reads `xs[-1].feeRate`,
which is `undefined`, and `NaN >= rate` is `false` — the `none` case here.
`prev` carries `xs[i-1]`. -/
def validFlag (minSavingsRate : ℚ) (prev : Option DiffEntry) (fee : DiffEntry) : Bool :=
  (fee.diff == 0) ||
    (match prev with
     | some p => decide (minSavingsRate ≤ fee.diff / p.feeRate)
     | none => false)

/-- The per-entry step of the `minDiff$` reduce (lines 256-269), recursing
down the filtered slope array while carrying `xs[i-1]` and the running
`cumDiff`. -/
def minDiffScan (minSavingsRate : ℚ) (prev : Option DiffEntry) (cumDiff : ℚ) :
    List DiffEntry → List MinDiffEntry
  | [] => []
  | fee :: rest =>
    { diff := fee.diff, feeRate := fee.feeRate, targetBlock := fee.targetBlock
      cumDiff := cumDiff + fee.diff
      valid := validFlag minSavingsRate prev fee }
      :: minDiffScan minSavingsRate (some fee) (cumDiff + fee.diff) rest

/-- The sort comparator of `minDiff$` (lines 271-273),
`(b, a) => sqrt(a.diff * a.cumDiff) / a.targetBlock - sqrt(b.diff * b.cumDiff) / b.targetBlock`,
as the total Boolean order "`u` may stay before `v`" (comparator value `≤ 0`,
i.e. `cost v ≤ cost u`), expressed by squaring — equivalent because every
entry reaching the sort has `diff * cumDiff ≥ 0` (both factors are `≤ 0`
downstream of the `feeDiff$` filter) and `targetBlock ≥ 1`. -/
def costLe (u v : MinDiffEntry) : Bool :=
  decide (v.diff * v.cumDiff * (u.targetBlock : ℚ) ^ 2
    ≤ u.diff * u.cumDiff * (v.targetBlock : ℚ) ^ 2)

/-- `minDiff$` (lines 253-274): annotate with `cumDiff` and `valid`, keep the
valid entries, sort by the cost comparator.  The emitted list is published on
`com.fee.mindiff`. -/
def minDiff (minSavingsRate : ℚ) (x : List DiffEntry) : List MinDiffEntry :=
  ((minDiffScan minSavingsRate none 0 x).filter (·.valid)).mergeSort costLe

/-- Modelled from the spec: the prefix sums of a list of sizes, started from
`c` — the spec's phrase "the prefix sum of `size` in feeRate-descending
order", used to compare against the `cumSize` fields the code assigns. -/
def prefixSums (c : ℚ) : List ℚ → List ℚ
  | [] => []
  | s :: rest => (c + s) :: prefixSums (c + s) rest

/-- A concrete packed transaction, used for boundary instances. -/
def someTx : MempoolTx :=
  { size := 250, fee := 1, descendantsize := 500, descendantfees := 2
    txid := "t0", feeRate := 1 / 250, cumSize := 250, targetBlock := 1 }

/-- The four combined fee estimates of the recommendation-filter scenario:
feeRates `[100, 95, 94, 94]` for targets `1, 2, 3, 4`. -/
def exFees : List FeeEst :=
  [⟨100, 1⟩, ⟨95, 2⟩, ⟨94, 3⟩, ⟨94, 4⟩]

/-- A raw mempool value carrying only the node's descendent-spelled aggregate
keys (`descendentsize = 200`, `descendentfees = 50`); the descendant-spelled
keys are absent. -/
def exJsEntry : RawTxJs :=
  { size := 100, fee := 10
    descendentsize := some 200, descendentfees := some 50
    descendantsize := none, descendantfees := none }

/-- C1: the code is wrong on this claim.  `acceleration` is built with
`scan((v0, v1) => v1 - v0)`, and the scan accumulator is the previous
*emission*, not the previous velocity: on velocity emissions `[1, 2, 3]` the
stream emits `[1, 2 - 1, 3 - (2 - 1)] = [1, 1, 2]`, whereas the first
discrete difference claimed by the spec is `[1, 2 - 1, 3 - 2] = [1, 1, 1]`. -/
theorem acceleration_scan_subtracts_previous_emission :
    accelerationEmits [1, 2, 3] = [1, 1, 2]
    ∧ accelerationEmits [1, 2, 3] ≠ [1, 2 - 1, 3 - 2] := by
  constructor <;> norm_num [accelerationEmits, scan1, scan1Go]

/-- C2: the code is wrong on this claim.  On feeRates `[100, 95, 94, 94]`
with `minSavingsRate = 0.02` the slopes are `[0, -5, -1, 0]` as claimed, but
the validity test compares the *signed* slope with the positive threshold:
target 2 has `diff / prev = -5 / 100 = -0.05 < 0.02` and is marked invalid
(so is target 3), while targets 1 and 4 (`diff = 0`) are valid — the
published ranked list holds targets `[1, 4]`, not `[2, 4]`. -/
theorem minDiff_scenario_publishes_zero_diff_targets :
    (feeDiffAll exFees).map (·.diff) = [0, -5, -1, 0]
    ∧ (minDiffScan (1 / 50) none 0 (feeDiff exFees)).map (·.valid)
        = [true, false, false, true]
    ∧ (minDiff (1 / 50) (feeDiff exFees)).map (·.targetBlock) = [1, 4] := by
  refine ⟨by norm_num [feeDiffAll, exFees, List.enum, List.enumFrom, range], ?_, ?_⟩
  · norm_num [minDiffScan, validFlag, feeDiff, feeDiffAll, exFees, List.enum,
      List.enumFrom, range]
  · rw [minDiff,
      show ((minDiffScan (1 / 50) none 0 (feeDiff exFees)).filter (·.valid))
          = [{ diff := 0, feeRate := 100, targetBlock := 1, cumDiff := 0, valid := true },
             { diff := 0, feeRate := 94, targetBlock := 4, cumDiff := -6, valid := true }]
        from by
          norm_num [minDiffScan, validFlag, feeDiff, feeDiffAll, exFees, List.enum,
            List.enumFrom, range],
      List.mergeSort_of_sorted (by norm_num [costLe, List.pairwise_cons])]
    simp

/-- C4: the code is wrong on this claim.  On an entry carrying only the
descendent-spelled aggregate keys, line 50 reads the (absent)
descendant-spelled keys, so the produced `feeRate` is
`undefined / undefined = NaN` (`none`), not the claimed quotient
`descendentfees / descendentsize = 50 / 200 = 1/4` of the entry's aggregate
fields. -/
theorem sortByFee_descendent_spelling_feeRate_nan :
    (jsProject [("a", exJsEntry)]).map (·.feeRate) = [none]
    ∧ jsDiv exJsEntry.descendentfees exJsEntry.descendentsize = some (1 / 4) := by
  constructor
  · simp [jsProject, exJsEntry, jsDiv]
  · norm_num [jsDiv, exJsEntry]

/-- Removing against an empty new snapshot removes every previous transaction
(`differenceBy(prev, [], 'txid') = prev`). -/
theorem removedTxs_nil (prev : List MempoolTx) : removedTxs prev [] = prev := by
  simp [removedTxs]

/-- C7: a removed set is classified as a mined block event exactly when it
contains strictly more than 500 transactions; a snapshot-to-snapshot removed
set of exactly 500 transactions is not classified, one of 501 is. -/
theorem minedEvent_iff_more_than_500 :
    (∀ removed : List MempoolTx, isMinedEvent removed = true ↔ 500 < removed.length)
    ∧ isMinedEvent (removedTxs (List.replicate 500 someTx) []) = false
    ∧ isMinedEvent (removedTxs (List.replicate 501 someTx) []) = true := by
  refine ⟨fun removed => by simp [isMinedEvent], ?_, ?_⟩ <;>
    rw [removedTxs_nil, isMinedEvent, List.length_replicate] <;> rfl

/-- Packing preserves each transaction's `size`, in order. -/
theorem pack_map_size (B : ℚ) :
    ∀ (l : List PreTx) (c : ℚ) (t n : ℕ),
      (pack B l c t n).map MempoolTx.size = l.map PreTx.size
  | [], _, _, _ => rfl
  | tx :: rest, c, t, n => by
    rw [pack]
    split <;> simp [pack_map_size B rest]

/-- Packing preserves each transaction's `feeRate`, in order. -/
theorem pack_map_feeRate (B : ℚ) :
    ∀ (l : List PreTx) (c : ℚ) (t n : ℕ),
      (pack B l c t n).map MempoolTx.feeRate = l.map PreTx.feeRate
  | [], _, _, _ => rfl
  | tx :: rest, c, t, n => by
    rw [pack]
    split <;> simp [pack_map_feeRate B rest]

/-- Packing preserves each transaction's `txid`, in order. -/
theorem pack_map_txid (B : ℚ) :
    ∀ (l : List PreTx) (c : ℚ) (t n : ℕ),
      (pack B l c t n).map MempoolTx.txid = l.map PreTx.txid
  | [], _, _, _ => rfl
  | tx :: rest, c, t, n => by
    rw [pack]
    split <;> simp [pack_map_txid B rest]

/-- The `cumSize` fields assigned by packing are exactly the prefix sums of
the sizes, in order, started from the initial accumulator. -/
theorem pack_map_cumSize (B : ℚ) :
    ∀ (l : List PreTx) (c : ℚ) (t n : ℕ),
      (pack B l c t n).map MempoolTx.cumSize = prefixSums c (l.map PreTx.size)
  | [], _, _, _ => rfl
  | tx :: rest, c, t, n => by
    rw [pack]
    split <;> simp [pack_map_cumSize B rest, prefixSums]

/-- The head of a prefix-sum list is the start plus some member. -/
theorem prefixSums_head? :
    ∀ (l : List ℚ) (c z : ℚ), (prefixSums c l).head? = some z → ∃ s ∈ l, z = c + s
  | [], _, _, h => by simp [prefixSums] at h
  | s :: rest, c, z, h => by
    rw [prefixSums] at h
    simp only [List.head?_cons, Option.some.injEq] at h
    exact ⟨s, List.mem_cons_self s rest, h.symm⟩

/-- Prefix sums of non-negative values are non-decreasing. -/
theorem prefixSums_chain :
    ∀ (l : List ℚ) (c : ℚ), (∀ s ∈ l, 0 ≤ s) →
      List.Chain' (· ≤ ·) (prefixSums c l)
  | [], _, _ => by simp [prefixSums]
  | s :: rest, c, h => by
    rw [prefixSums]
    refine List.chain'_cons'.mpr ⟨?_, prefixSums_chain rest (c + s)
      fun u hu => h u (List.mem_cons_of_mem s hu)⟩
    intro z hz
    obtain ⟨u, hu, rfl⟩ := prefixSums_head? (rest.map id) (c + s) z (by simpa using hz)
    have : 0 ≤ u := h u (List.mem_cons_of_mem s (by simpa using hu))
    linarith

/-- The head of a packed list has `targetBlock` equal to the running target or
its successor. -/
theorem pack_head?_targetBlock (B : ℚ) :
    ∀ (l : List PreTx) (c : ℚ) (t n : ℕ) (z : MempoolTx),
      (pack B l c t n).head? = some z → t ≤ z.targetBlock ∧ z.targetBlock ≤ t + 1
  | [], _, _, _, _, h => by simp [pack] at h
  | tx :: rest, c, t, n, z, h => by
    rw [pack] at h
    split at h <;> simp only [List.head?_cons, Option.some.injEq] at h <;>
      subst h <;> simp

/-- Along a packed list, `targetBlock` never decreases and increases by at
most one at each step. -/
theorem pack_chain_targetBlock (B : ℚ) :
    ∀ (l : List PreTx) (c : ℚ) (t n : ℕ),
      List.Chain' (fun a b => a.targetBlock ≤ b.targetBlock
        ∧ b.targetBlock ≤ a.targetBlock + 1) (pack B l c t n)
  | [], _, _, _ => by simp [pack]
  | tx :: rest, c, t, n => by
    rw [pack]
    split <;>
      refine List.chain'_cons'.mpr ⟨?_, pack_chain_targetBlock B rest _ _ _⟩ <;>
      intro z hz <;>
      have := pack_head?_targetBlock B rest _ _ _ z hz <;>
      simp <;> omega

/-- The fee comparator is transitive. -/
theorem feeRateLe_trans : ∀ (a b c : PreTx), feeRateLe a b → feeRateLe b c → feeRateLe a c := by
  intro a b c hab hbc
  simp only [feeRateLe, decide_eq_true_eq] at *
  exact le_trans hbc hab

/-- The fee comparator is total. -/
theorem feeRateLe_total : ∀ (a b : PreTx), feeRateLe a b || feeRateLe b a := by
  intro a b
  simp only [feeRateLe, Bool.or_eq_true, decide_eq_true_eq]
  exact le_total b.feeRate a.feeRate

/-- C5: packing invariants of `sortByFee`.  For non-negative sizes, `cumSize`
is non-decreasing along the packed list and equals the prefix sums of `size`
in the packed (feeRate-descending) order; `targetBlock` is non-decreasing
with consecutive steps of 0 or 1; and `feeRate` is non-increasing. -/
theorem sortByFee_packing_invariants (B : ℚ) (txs : List (String × RawMempoolEntry))
    (hsz : ∀ p ∈ txs, 0 ≤ p.2.size) :
    List.Chain' (fun a b => a.cumSize ≤ b.cumSize) (sortByFee B txs)
    ∧ (sortByFee B txs).map MempoolTx.cumSize
        = prefixSums 0 ((sortByFee B txs).map MempoolTx.size)
    ∧ List.Chain' (fun a b => a.targetBlock ≤ b.targetBlock
        ∧ b.targetBlock ≤ a.targetBlock + 1) (sortByFee B txs)
    ∧ List.Chain' (fun a b => b.feeRate ≤ a.feeRate) (sortByFee B txs) := by
  have hsz' : ∀ p ∈ (txs.map toPreTx).mergeSort feeRateLe, 0 ≤ p.size := by
    intro p hp
    obtain ⟨q, hq, rfl⟩ := List.mem_map.mp (List.mem_mergeSort.mp hp)
    exact hsz q hq
  have hmapc : (sortByFee B txs).map MempoolTx.cumSize
      = prefixSums 0 (((txs.map toPreTx).mergeSort feeRateLe).map PreTx.size) :=
    pack_map_cumSize B _ 0 1 1
  have hmaps : (sortByFee B txs).map MempoolTx.size
      = ((txs.map toPreTx).mergeSort feeRateLe).map PreTx.size :=
    pack_map_size B _ 0 1 1
  refine ⟨?_, ?_, pack_chain_targetBlock B _ 0 1 1, ?_⟩
  · have hch : List.Chain' (· ≤ ·)
        (prefixSums 0 (((txs.map toPreTx).mergeSort feeRateLe).map PreTx.size)) := by
      refine prefixSums_chain _ 0 ?_
      intro s hs
      obtain ⟨p, hp, rfl⟩ := List.mem_map.mp hs
      exact hsz' p hp
    rw [← hmapc] at hch
    exact (List.chain'_map MempoolTx.cumSize).mp hch
  · rw [hmaps, hmapc]
  · have hpw : List.Pairwise (fun a b : PreTx => b.feeRate ≤ a.feeRate)
        ((txs.map toPreTx).mergeSort feeRateLe) := by
      refine (List.sorted_mergeSort feeRateLe_trans feeRateLe_total
        (txs.map toPreTx)).imp ?_
      intro a b h
      simpa [feeRateLe] using h
    have hch : List.Chain' (fun x y : ℚ => y ≤ x)
        (((txs.map toPreTx).mergeSort feeRateLe).map PreTx.feeRate) :=
      (List.chain'_map PreTx.feeRate).mpr hpw.chain'
    rw [← pack_map_feeRate B _ 0 1 1] at hch
    exact (List.chain'_map MempoolTx.feeRate).mp hch

/-- The three-transaction packing-boundary example: sizes 600 000, 500 000
and 100 000 at descending feeRates with `blockEffectiveSize` 1 000 000. -/
def txs3 : List (String × RawMempoolEntry) :=
  [("t1", ⟨600000, 1, 1000, 300⟩), ("t2", ⟨500000, 1, 1000, 200⟩),
   ("t3", ⟨100000, 1, 1000, 100⟩)]

/-- Witness for C5 at the packing-boundary example. -/
theorem sortByFee_packing_invariants_witness :
    (∀ p ∈ txs3, 0 ≤ p.2.size)
    ∧ (List.Chain' (fun a b => a.cumSize ≤ b.cumSize) (sortByFee 1000000 txs3)
      ∧ (sortByFee 1000000 txs3).map MempoolTx.cumSize
          = prefixSums 0 ((sortByFee 1000000 txs3).map MempoolTx.size)
      ∧ List.Chain' (fun a b => a.targetBlock ≤ b.targetBlock
          ∧ b.targetBlock ≤ a.targetBlock + 1) (sortByFee 1000000 txs3)
      ∧ List.Chain' (fun a b => b.feeRate ≤ a.feeRate) (sortByFee 1000000 txs3)) :=
  ⟨by norm_num [txs3], sortByFee_packing_invariants 1000000 txs3 (by norm_num [txs3])⟩

/-- C6 (amended): a single transaction whose size exceeds
`blockEffectiveSize` is assigned `targetBlock = 2` — the packing counter
increments on the crossing transaction itself. -/
theorem sortByFee_oversize_singleton (B : ℚ) (k : String) (e : RawMempoolEntry)
    (h : B < e.size) :
    (sortByFee B [(k, e)]).map MempoolTx.targetBlock = [2] := by
  rw [sortByFee]
  simp only [List.map_cons, List.map_nil, List.mergeSort_singleton]
  rw [pack, if_pos (by simp [toPreTx]; linarith)]
  simp [pack]

/-- A raw mempool entry of size 1500, larger than the
`blockEffectiveSize = 1000` it is packed against. -/
def exOversize : RawMempoolEntry :=
  ⟨1500, 10, 3000, 300⟩

/-- Counterexample to C6 as stated: the single oversize transaction receives
`targetBlock = 2`, not `1`. -/
theorem sortByFee_oversize_singleton_counterexample :
    (sortByFee 1000 [("a", exOversize)]).map MempoolTx.targetBlock = [2]
    ∧ (sortByFee 1000 [("a", exOversize)]).map MempoolTx.targetBlock ≠ [1] := by
  have h : (sortByFee 1000 [("a", exOversize)]).map MempoolTx.targetBlock = [2] := by
    rw [sortByFee]
    simp only [List.map_cons, List.map_nil, List.mergeSort_singleton]
    rw [pack, if_pos (by norm_num [toPreTx, exOversize])]
    simp [pack]
  exact ⟨h, by rw [h]; simp⟩

/-- Witness for the amended C6. -/
theorem sortByFee_oversize_singleton_witness :
    (500 : ℚ) < (⟨600, 1, 600, 30⟩ : RawMempoolEntry).size
    ∧ (sortByFee 500 [("w", ⟨600, 1, 600, 30⟩)]).map MempoolTx.targetBlock = [2] :=
  ⟨by norm_num, sortByFee_oversize_singleton 500 "w" ⟨600, 1, 600, 30⟩ (by norm_num)⟩

/-- C9 (amended): the sort of `sortByFee` has no `txid` tie-break; it is
stable, so two transactions with equal `feeRate` keep the enumeration order
of the input mapping in the packed snapshot. -/
theorem sortByFee_tie_stable (B : ℚ) (txs : List (String × RawMempoolEntry))
    (p q : PreTx) (hsub : [p, q].Sublist (txs.map toPreTx))
    (heq : p.feeRate = q.feeRate) :
    [p.txid, q.txid].Sublist ((sortByFee B txs).map MempoolTx.txid) := by
  have hle : feeRateLe p q := by simp [feeRateLe, heq]
  have h1 : [p, q].Sublist ((txs.map toPreTx).mergeSort feeRateLe) :=
    List.pair_sublist_mergeSort feeRateLe_trans feeRateLe_total hle hsub
  have h2 := h1.map PreTx.txid
  rw [sortByFee, pack_map_txid B _ 0 1 1]
  simpa using h2

/-- A raw mempool entry used for the feeRate-tie examples. -/
def exTie : RawMempoolEntry :=
  ⟨100, 1, 200, 100⟩

/-- Counterexample to C9 as stated: with two equal-feeRate transactions
enumerated as `"b"` then `"a"`, the packed snapshot lists `"b"` first even
though `"a"` is lexicographically smaller, and enumerating the same two
entries in the other order yields a different packed snapshot. -/
theorem sortByFee_tie_enumeration_counterexample :
    (sortByFee 1 [("b", exTie), ("a", exTie)]).map MempoolTx.txid = ["b", "a"]
    ∧ "a" < "b"
    ∧ sortByFee 1 [("b", exTie), ("a", exTie)]
        ≠ sortByFee 1 [("a", exTie), ("b", exTie)] := by
  have hba : (sortByFee 1 [("b", exTie), ("a", exTie)]).map MempoolTx.txid
      = ["b", "a"] := by
    rw [sortByFee, List.mergeSort_of_sorted
      (by norm_num [feeRateLe, toPreTx, exTie, List.pairwise_cons])]
    norm_num [pack, toPreTx, exTie]
  have hab : (sortByFee 1 [("a", exTie), ("b", exTie)]).map MempoolTx.txid
      = ["a", "b"] := by
    rw [sortByFee, List.mergeSort_of_sorted
      (by norm_num [feeRateLe, toPreTx, exTie, List.pairwise_cons])]
    norm_num [pack, toPreTx, exTie]
  refine ⟨hba, by rw [String.lt_iff_toList_lt]; decide, ?_⟩
  intro hcontra
  have := congrArg (List.map MempoolTx.txid) hcontra
  rw [hba, hab] at this
  simp at this

/-- Witness for the amended C9. -/
theorem sortByFee_tie_stable_witness :
    [toPreTx ("x", exTie), toPreTx ("y", exTie)].Sublist
        ([("x", exTie), ("y", exTie)].map toPreTx)
    ∧ (toPreTx ("x", exTie)).feeRate = (toPreTx ("y", exTie)).feeRate
    ∧ ["x", "y"].Sublist ((sortByFee 7 [("x", exTie), ("y", exTie)]).map MempoolTx.txid) :=
  ⟨by simp, rfl, by
    simpa using sortByFee_tie_stable 7 [("x", exTie), ("y", exTie)]
      (toPreTx ("x", exTie)) (toPreTx ("y", exTie)) (by simp) rfl⟩

/-- Every entry of the `feeDiff$` slope array carries the `feeRate` of one of
the fee estimates it is built from (the spread `...fee`). -/
theorem feeDiffAll_feeRate_mem (x : List FeeEst) :
    ∀ e ∈ feeDiffAll x, ∃ f ∈ x, e.feeRate = f.feeRate := by
  intro e he
  obtain ⟨p, hp, rfl⟩ := List.mem_map.mp he
  have hmem : p.2 ∈ x := by
    have h2 := List.mem_map_of_mem Prod.snd hp
    rw [List.enum_eq_enumFrom, List.enumFrom_map_snd] at h2
    exact h2
  refine ⟨p.2, hmem, ?_⟩
  split <;> rfl

/-- In the `minDiff$` reduce, an entry marked valid whose upstream slopes are
all non-positive and whose upstream feeRates are all positive must have
`diff = 0`: a strictly negative `diff` divided by a positive previous
`feeRate` is negative, never at least the positive savings threshold. -/
theorem minDiffScan_valid_diff_zero (rate : ℚ) (hrate : 0 < rate) :
    ∀ (xs : List DiffEntry) (prev : Option DiffEntry) (c : ℚ),
      (∀ f ∈ xs, f.diff ≤ 0) → (∀ f ∈ xs, 0 < f.feeRate) →
      (∀ p, prev = some p → 0 < p.feeRate) →
      ∀ e ∈ minDiffScan rate prev c xs, e.valid = true → e.diff = 0
  | [], _, _, _, _, _ => by simp [minDiffScan]
  | fee :: rest, prev, c, hd, hf, hp => by
    rw [minDiffScan]
    intro e he hv
    rcases List.mem_cons.mp he with he | he
    · subst he
      simp only [validFlag] at hv
      rcases Bool.or_eq_true_iff.mp hv with h0 | h0
      · simpa using beq_iff_eq.mp h0
      · exfalso
        match hprev : prev with
        | none => simp at h0
        | some p =>
          simp only [decide_eq_true_eq] at h0
          have hppos : 0 < p.feeRate := hp p rfl
          have hdn : fee.diff ≤ 0 := hd fee (List.mem_cons_self fee rest)
          have : fee.diff / p.feeRate ≤ 0 :=
            div_nonpos_iff.mpr (Or.inr ⟨hdn, le_of_lt hppos⟩)
          linarith
    · exact minDiffScan_valid_diff_zero rate hrate rest (some fee) (c + fee.diff)
        (fun f hf2 => hd f (List.mem_cons_of_mem fee hf2))
        (fun f hf2 => hf f (List.mem_cons_of_mem fee hf2))
        (fun p hpeq => by
          cases hpeq
          exact hf fee (List.mem_cons_self fee rest))
        e he hv

/-- C3: for four fee estimates with positive feeRates and a positive
`minSavingsRate`, every entry of the ranked list emitted by `minDiff$` has
`diff = 0`: a strictly negative slope surviving the `diff ≤ 0` filter has
`diff / feeRate < 0 < minSavingsRate`, is marked invalid and is filtered out,
so no strictly negative marginal saving is ever published. -/
theorem minDiff_published_diff_zero (f1 f2 f3 f4 : FeeEst) (rate : ℚ)
    (hrate : 0 < rate) (h1 : 0 < f1.feeRate) (h2 : 0 < f2.feeRate)
    (h3 : 0 < f3.feeRate) (h4 : 0 < f4.feeRate) :
    ∀ e ∈ minDiff rate (feeDiff [f1, f2, f3, f4]), e.diff = 0 := by
  intro e he
  have he2 := List.mem_mergeSort.mp he
  have he3 := List.mem_filter.mp he2
  refine minDiffScan_valid_diff_zero rate hrate (feeDiff [f1, f2, f3, f4]) none 0
    ?_ ?_ (by simp) e he3.1 (by simpa using he3.2)
  · intro f hf
    have := List.mem_filter.mp hf
    simpa using this.2
  · intro f hf
    have hmem : f ∈ feeDiffAll [f1, f2, f3, f4] := (List.mem_filter.mp hf).1
    obtain ⟨g, hg, heq⟩ := feeDiffAll_feeRate_mem _ f hmem
    rw [heq]
    simp only [List.mem_cons, List.not_mem_nil, or_false] at hg
    rcases hg with rfl | rfl | rfl | rfl <;> assumption

/-- Witness for C3 at concrete fee estimates `[100, 90, 85, 85]` and
`minSavingsRate = 1/50`. -/
theorem minDiff_published_diff_zero_witness :
    (0 : ℚ) < 1 / 50
    ∧ (0 : ℚ) < (⟨100, 1⟩ : FeeEst).feeRate
    ∧ ∀ e ∈ minDiff (1 / 50) (feeDiff [⟨100, 1⟩, ⟨90, 2⟩, ⟨85, 3⟩, ⟨85, 4⟩]), e.diff = 0 :=
  ⟨by norm_num, by norm_num, minDiff_published_diff_zero ⟨100, 1⟩ ⟨90, 2⟩ ⟨85, 3⟩ ⟨85, 4⟩
    (1 / 50) (by norm_num) (by norm_num) (by norm_num) (by norm_num) (by norm_num)⟩

/-- Filtering an enumerated list by a lower index threshold and projecting
the values back drops exactly the elements before the threshold. -/
theorem enumFrom_filter_le_map_snd :
    ∀ (xs : List α) (k t : ℕ),
      ((List.enumFrom k xs).filter fun p => decide (t ≤ p.1)).map Prod.snd
        = xs.drop (t - k)
  | [], _, _ => by simp
  | x :: xs, k, t => by
    rw [List.enumFrom_cons, List.filter_cons]
    by_cases h : t ≤ k
    · rw [if_pos (by simpa using h)]
      rw [List.map_cons, enumFrom_filter_le_map_snd xs (k + 1) t,
        Nat.sub_eq_zero_of_le h, Nat.sub_eq_zero_of_le (le_trans h (Nat.le_succ k))]
      simp
    · rw [if_neg (by simpa using h)]
      rw [enumFrom_filter_le_map_snd xs (k + 1) t,
        show t - k = (t - (k + 1)) + 1 from by omega, List.drop_succ_cons]

/-- Under exact arithmetic, the `i > n * (1 - q)` filter of `minQuant` keeps
exactly the indices `i ≥ n + 1 - ⌈n q⌉`, i.e. the last `⌈n q⌉ - 1` entries. -/
theorem minQuant_eq_drop (xs : List α) (q : ℚ) (hq0 : 0 < q) (hq1 : q < 1) :
    minQuant xs q = xs.drop (xs.length + 1 - (⌈(xs.length : ℚ) * q⌉).toNat) := by
  have hnn : (0 : ℚ) ≤ (xs.length : ℚ) * q := by positivity
  have hle : ⌈(xs.length : ℚ) * q⌉ ≤ (xs.length : ℤ) := by
    rw [Int.ceil_le]
    push_cast
    nlinarith [Nat.cast_nonneg (α := ℚ) xs.length]
  have hcong : ∀ p ∈ xs.enum,
      (decide ((xs.length : ℚ) * (1 - q) < (p.1 : ℚ)))
        = decide (xs.length + 1 - (⌈(xs.length : ℚ) * q⌉).toNat ≤ p.1) := by
    intro p _
    rw [decide_eq_decide]
    have h1 : ((xs.length : ℚ) * (1 - q) < (p.1 : ℚ))
        ↔ ((xs.length - p.1 : ℤ) : ℚ) < (xs.length : ℚ) * q := by
      push_cast
      constructor <;> intro <;> nlinarith
    rw [h1, ← Int.lt_ceil]
    have hcnn : 0 ≤ ⌈(xs.length : ℚ) * q⌉ := Int.ceil_nonneg hnn
    omega
  rw [minQuant, List.filter_congr hcong, List.enum_eq_enumFrom,
    enumFrom_filter_le_map_snd, Nat.sub_zero]

/-- C8 (amended): for `0 < q < 1` the published quantile is the arithmetic
mean of `feeRate` over the last `⌈n q⌉ - 1` entries of the sorted list (the
`>` comparison of `minQuant` shifts the claimed `⌈n q⌉`-entry tail by one). -/
theorem minQuant_shifted_tail_mean (xs : List MempoolTx) (q : ℚ)
    (hq0 : 0 < q) (hq1 : q < 1) :
    minQuant xs q = xs.drop (xs.length + 1 - (⌈(xs.length : ℚ) * q⌉).toNat)
    ∧ (minQuant xs q).length = (⌈(xs.length : ℚ) * q⌉).toNat - 1
    ∧ jsMeanBy MempoolTx.feeRate (minQuant xs q)
        = jsMeanBy MempoolTx.feeRate
            (xs.drop (xs.length + 1 - (⌈(xs.length : ℚ) * q⌉).toNat)) := by
  have h := minQuant_eq_drop xs q hq0 hq1
  refine ⟨h, ?_, by rw [h]⟩
  rw [h, List.length_drop]
  have hle : ⌈(xs.length : ℚ) * q⌉ ≤ (xs.length : ℤ) := by
    rw [Int.ceil_le]
    push_cast
    nlinarith [Nat.cast_nonneg (α := ℚ) xs.length]
  omega

/-- A mined transaction with the given feeRate, for the quantile examples. -/
def mkTx (r : ℚ) : MempoolTx :=
  { size := 1, fee := 1, descendantsize := 1, descendantfees := r
    txid := "m", feeRate := r, cumSize := 1, targetBlock := 1 }

/-- The sorted three-transaction mined list with feeRates `3, 2, 1`. -/
def exTail : List MempoolTx :=
  [mkTx 3, mkTx 2, mkTx 1]

/-- Counterexample to C8 as stated: with `n = 3` and `q = 2/5` the claimed
tail has `⌈n q⌉ = 2` entries with mean `3/2`, but `minQuant` keeps a single
entry and the published mean is `1`. -/
theorem minQuant_ceil_tail_counterexample :
    (⌈((3 : ℕ) : ℚ) * (2 / 5)⌉).toNat = 2
    ∧ jsMeanBy MempoolTx.feeRate (minQuant exTail (2 / 5)) = some 1
    ∧ jsMeanBy MempoolTx.feeRate (exTail.drop (3 - 2)) = some (3 / 2)
    ∧ some (1 : ℚ) ≠ some (3 / 2 : ℚ) := by
  refine ⟨?_, ?_, ?_, by norm_num⟩
  · rw [show ((3 : ℕ) : ℚ) * (2 / 5) = 6 / 5 from by norm_num,
      show ⌈(6 / 5 : ℚ)⌉ = 2 from by rw [Int.ceil_eq_iff]; norm_num]
    rfl
  · norm_num [minQuant, exTail, mkTx, jsMeanBy, List.enum, List.enumFrom]
  · norm_num [exTail, mkTx, jsMeanBy]

/-- Witness for the amended C8 at `n = 5`, `q = 2/5`. -/
theorem minQuant_shifted_tail_mean_witness :
    (0 : ℚ) < 2 / 5 ∧ (2 / 5 : ℚ) < 1
    ∧ (minQuant [mkTx 5, mkTx 4, mkTx 3, mkTx 2, mkTx 1] (2 / 5)
        = ([mkTx 5, mkTx 4, mkTx 3, mkTx 2, mkTx 1] : List MempoolTx).drop
            (5 + 1 - (⌈((5 : ℕ) : ℚ) * (2 / 5)⌉).toNat)
      ∧ (minQuant [mkTx 5, mkTx 4, mkTx 3, mkTx 2, mkTx 1] (2 / 5)).length
          = (⌈((5 : ℕ) : ℚ) * (2 / 5)⌉).toNat - 1
      ∧ jsMeanBy MempoolTx.feeRate (minQuant [mkTx 5, mkTx 4, mkTx 3, mkTx 2, mkTx 1] (2 / 5))
          = jsMeanBy MempoolTx.feeRate
              (([mkTx 5, mkTx 4, mkTx 3, mkTx 2, mkTx 1] : List MempoolTx).drop
                (5 + 1 - (⌈((5 : ℕ) : ℚ) * (2 / 5)⌉).toNat))) :=
  ⟨by norm_num, by norm_num,
    minQuant_shifted_tail_mean [mkTx 5, mkTx 4, mkTx 3, mkTx 2, mkTx 1] (2 / 5)
      (by norm_num) (by norm_num)⟩

/-- C10: when `n * q ≤ 1` no index clears the `i > n * (1 - q)` threshold, so
the tail selected by `minQuant` is empty and the corresponding quantile field
of the published summary is the mean of an empty list — `NaN` (`none`). -/
theorem minQuant_small_quantile_empty (xs : List MempoolTx) (q : ℚ)
    (h : (xs.length : ℚ) * q ≤ 1) :
    minQuant xs q = [] ∧ jsMeanBy MempoolTx.feeRate (minQuant xs q) = none := by
  have hempty : minQuant xs q = [] := by
    rw [minQuant]
    have hfil : (xs.enum.filter fun p =>
        decide ((xs.length : ℚ) * (1 - q) < (p.1 : ℚ))) = [] := by
      rw [List.filter_eq_nil_iff]
      intro p hp
      have hlt : p.1 < xs.length := by
        have h2 := List.mem_map_of_mem Prod.fst hp
        rw [List.enum_eq_enumFrom, List.enumFrom_map_fst] at h2
        have h3 := (List.mem_range'_1.mp h2).2
        omega
      simp only [decide_eq_true_eq, not_lt]
      have : (p.1 : ℚ) ≤ (xs.length : ℚ) - 1 := by
        have : (p.1 : ℚ) + 1 ≤ (xs.length : ℚ) := by exact_mod_cast hlt
        linarith
      nlinarith
    rw [hfil]
    rfl
  exact ⟨hempty, by rw [hempty]; rfl⟩

/-- Witness for C10 at a 501-transaction mined event and `q = 1/1000`. -/
theorem minQuant_small_quantile_empty_witness :
    ((List.replicate 501 someTx : List MempoolTx).length : ℚ) * (1 / 1000) ≤ 1
    ∧ (minQuant (List.replicate 501 someTx) (1 / 1000) = []
      ∧ jsMeanBy MempoolTx.feeRate (minQuant (List.replicate 501 someTx) (1 / 1000)) = none) :=
  ⟨by rw [List.length_replicate]; norm_num,
    minQuant_small_quantile_empty (List.replicate 501 someTx) (1 / 1000)
      (by rw [List.length_replicate]; norm_num)⟩

end BtcCongestion
